import Mathlib

/-!
A shallow embedding of the image-hosting repository core.

Embedded source locations:
- src/lib/filename.ts : sanitizeFilename, toPublicUrl, the POST upload
  route handler and the POST delete route handler of the Next.js variant;
- src/lib/db.ts : the filename-keyed metadata store (db.upsert);
- src/unnamed/part_001 : the client upload coordinator
  (runWithConcurrency bounded worker pool, startUpload clamp, uploadOne);
- src/unnamed/part_002 : the Express bulk-delete route (toFilename
  classification, Set deduplication, per-item deletion loop);
- src/app/api/images/list/route.ts : the server CSV export;
- src/components/image-table.tsx : the client CSV export (downloadCsv).

Modelling conventions: JS strings are Lean String or List Char; JS
objects used as string-keyed maps are association lists; timestamps and
generated ids are parameters supplied by the caller; fallible I/O
operations take their outcome as an explicit Option String parameter
(none = success, some msg = the thrown message). Platform builtins
(WHATWG URL parsing, path.basename, decodeURIComponent) are abstracted
as record fields of UrlLib, since they are not code of this repository.
-/

/-- The character class kept by the regex replacement
`cleaned = base.replace(/[^a-zA-Z0-9._-]/g, "_")` in sanitizeFilename
(src/lib/filename.ts). -/
def isSafeChar (c : Char) : Bool :=
  decide (('a' ≤ c ∧ c ≤ 'z') ∨ ('A' ≤ c ∧ c ≤ 'Z') ∨ ('0' ≤ c ∧ c ≤ '9') ∨
    c = '.' ∨ c = '_' ∨ c = '-')

/-- JS String.prototype.split with a single-character separator,
on the List Char view of the string. `"a/b".split("/") = ["a","b"]`,
`"a/".split("/") = ["a",""]`, `"".split("/") = [""]`. -/
def splitOnChar (sep : Char) : List Char → List (List Char)
  | [] => [[]]
  | c :: rest =>
    match splitOnChar sep rest with
    | [] => [[]]
    | first :: others =>
      if c = sep then [] :: first :: others else (c :: first) :: others

/-- JS Array.prototype.pop on the (always nonempty) result of split:
the last element. -/
def jsLastD (l : List (List Char)) : List Char := l.getLastD []

/-- The whitespace class stripped by JS String.prototype.trim
(restricted to its ASCII members, which is all that can matter here). -/
def jsWhitespace (c : Char) : Bool :=
  decide (c = ' ' ∨ c = '\t' ∨ c = '\n' ∨ c = '\r' ∨ c = '\x0b' ∨ c = '\x0c')

/-- JS String.prototype.trim on the List Char view. -/
def jsTrim (l : List Char) : List Char :=
  ((l.dropWhile jsWhitespace).reverse.dropWhile jsWhitespace).reverse

/-- sanitizeFilename from src/lib/filename.ts, on List Char:
`const base = name.split("/").pop()!.split("\\").pop()!`
`const cleaned = base.replace(/[^a-zA-Z0-9._-]/g, "_")`
`const finalName = cleaned.replace(/^_+/, "").trim() \x7c\x7c "file"`. -/
def sanitizeCore (name : List Char) : List Char :=
  let base := jsLastD (splitOnChar '\\' (jsLastD (splitOnChar '/' name)))
  let cleaned := base.map (fun c => if isSafeChar c then c else '_')
  let stripped := jsTrim (cleaned.dropWhile (fun c => c = '_'))
  if stripped.isEmpty then ['f', 'i', 'l', 'e'] else stripped

/-- sanitizeFilename on Lean String. -/
def sanitizeFilename (s : String) : String := ⟨sanitizeCore s.data⟩

/-- toPublicUrl from src/lib/filename.ts. -/
def toPublicUrl (filename : String) : String :=
  "/api/images/file/" ++ sanitizeFilename filename

/-- Lookup in a JS object used as a string-keyed map
(state.images[k], fs existence check on a directory listing). -/
def findVal {α : Type} : List (String × α) → String → Option α
  | [], _ => none
  | (k', v) :: rest, k => if k' = k then some v else findVal rest k

/-- Assignment state[k] = v in a JS object used as a string-keyed map:
replaces the existing binding in place, else appends. -/
def setKey {α : Type} : List (String × α) → String → α → List (String × α)
  | [], k, v => [(k, v)]
  | (k', v') :: rest, k, v =>
    if k' = k then (k, v) :: rest else (k', v') :: setKey rest k v

/-- ImageMeta from src/lib/db.ts. -/
structure ImageMeta where
  id : String
  filename : String
  url : String
  size : Nat
  mime : String
  createdAt : String
  updatedAt : String
deriving DecidableEq, Repr

/-- The read-modify-write body queued by db.upsert (src/lib/db.ts,
lines 78-93), acting on the images map of the persisted document.
`now` is the timestamp taken at execution time; `freshId` models the
randomUUID() draw used only when no record exists. -/
def dbUpsert (images : List (String × ImageMeta)) (filename url : String)
    (size : Nat) (mime : String) (now freshId : String) :
    List (String × ImageMeta) :=
  let existing := findVal images filename
  let next : ImageMeta :=
    ⟨(existing.map (fun e => e.id)).getD freshId, filename, url, size, mime,
      (existing.map (fun e => e.createdAt)).getD now, now⟩
  setKey images filename next

/-- JS `a \x7c\x7c b` on strings: the empty string is falsy. -/
def jsOrS (a b : String) : String := if a = "" then b else a

/-- One incoming file of the Next.js upload route (src/lib/filename.ts,
POST handler). `writeErr` models the outcome of fs.writeFile for this
file, `upsertErr` the outcome of the db.upsert persistence; `now` and
`freshId` are the timestamp and the randomUUID draw the store would use. -/
structure FileIn where
  name : String
  content : List Nat
  declaredMime : String
  now : String
  freshId : String
  writeErr : Option String
  upsertErr : Option String
deriving DecidableEq, Repr

/-- One element of the `results` array pushed by the upload route. -/
structure RouteResult where
  filename : String
  url : Option String
  status : String
  error : Option String
deriving DecidableEq, Repr

/-- The server state the upload route touches: the uploads directory
(filename to byte content) and the metadata document images map. -/
structure ServerState where
  storage : List (String × List Nat)
  images : List (String × ImageMeta)
deriving DecidableEq, Repr

/-- Result of processing a single file in the upload route loop. -/
structure StepOut where
  state : ServerState
  result : RouteResult
deriving DecidableEq, Repr

/-- `sanitizeFilename(file.name \x7c\x7c "file")` of the route. -/
def uploadName (f : FileIn) : String := sanitizeFilename (jsOrS f.name "file")

/-- The storage path of the route, modulo the constant uploads dir:
getSafeFilePath re-sanitizes its argument. -/
def destName (f : FileIn) : String := sanitizeFilename (uploadName f)

/-- The body of the per-file loop of the Next.js upload route
(src/lib/filename.ts, POST handler, lines 95-130): existence check,
skip on conflict, write, upsert, and the catch that reports a thrown
message with status "skipped". -/
def processOne (st : ServerState) (overwrite : Bool) (f : FileIn) : StepOut :=
  let originalName := uploadName f
  let dest := destName f
  let fileFound := (findVal st.storage dest).isSome
  if fileFound ∧ ¬overwrite then
    ⟨st, ⟨originalName, none, "skipped",
      some "File exists. Set overwrite=true to replace."⟩⟩
  else
    match f.writeErr with
    | some msg => ⟨st, ⟨originalName, none, "skipped", some msg⟩⟩
    | none =>
      let storage' := setKey st.storage dest f.content
      let url := toPublicUrl originalName
      match f.upsertErr with
      | some msg => ⟨⟨storage', st.images⟩, ⟨originalName, none, "skipped", some msg⟩⟩
      | none =>
        let mime := jsOrS f.declaredMime "application/octet-stream"
        let images' := dbUpsert st.images originalName url f.content.length mime
          f.now f.freshId
        ⟨⟨storage', images'⟩,
          ⟨originalName, some url,
            if fileFound then "overwritten" else "uploaded", none⟩⟩

/-- Outcome of the whole upload route loop over a batch. -/
structure BatchOut where
  state : ServerState
  results : List RouteResult
deriving DecidableEq, Repr

/-- The `for (const file of files)` loop of the upload route: every
file is processed in order, a thrown error only affects its own entry. -/
def processBatch (st : ServerState) (overwrite : Bool) :
    List FileIn → BatchOut
  | [] => ⟨st, []⟩
  | f :: rest =>
    let step := processOne st overwrite f
    let tail := processBatch step.state overwrite rest
    ⟨tail.state, step.result :: tail.results⟩

/-- The client worker settlement in runWithConcurrency
(src/unnamed/part_001, lines 91-100): a resolved worker result is
pushed as-is, a rejected one is pushed with status "error". -/
structure UploadResult where
  filename : String
  status : String
  error : Option String
deriving DecidableEq, Repr

def settleWorker (filename : String) :
    Except String UploadResult → UploadResult
  | Except.ok r => r
  | Except.error msg => ⟨filename, "error", some msg⟩

/-- The status computed by uploadOne (src/unnamed/part_001, lines
61-73): "error" on a non-ok response, else the status of the first
reported item, defaulting to "uploaded". -/
def uploadOneStatus (respOk : Bool) (itemStatus : Option String) : String :=
  if respOk then itemStatus.getD "uploaded" else "error"

/-- The terminal statuses of the UploadOutcome state machine. -/
def terminalStatuses : List String :=
  ["uploaded", "overwritten", "skipped", "error"]

/-- The scheduler state of runWithConcurrency (src/unnamed/part_001,
lines 75-111): the input cursor `idx`, the indices of dispatched but
unfinished workers (`active` is its length), and the settled `results`
as pairs of input index and terminal status. -/
structure PoolState where
  idx : Nat
  inflight : List Nat
  results : List (Nat × String)
deriving DecidableEq, Repr

/-- One iteration of `while (active < limit && idx < items.length)`:
dispatch the file at the cursor. -/
def poolDispatch (s : PoolState) : PoolState :=
  ⟨s.idx + 1, s.inflight ++ [s.idx], s.results⟩

/-- The dispatch while-loop, run with fuel `n - idx`, which bounds its
iteration count (every iteration advances the cursor). -/
def dispatchN (limit n : Nat) : Nat → PoolState → PoolState
  | 0, s => s
  | fuel + 1, s =>
    if s.inflight.length < limit ∧ s.idx < n then
      dispatchN limit n fuel (poolDispatch s)
    else s

/-- The `next()` dispatch pass of runWithConcurrency. -/
def dispatchLoop (limit n : Nat) (s : PoolState) : PoolState :=
  dispatchN limit n (n - s.idx) s

/-- The state after the initial `next()` call. -/
def initPool (limit n : Nat) : PoolState := dispatchLoop limit n ⟨0, [], []⟩

/-- Settlement of worker `j` (its .then/.catch pushes the outcome and
the .finally decrements the active count and calls next() again). -/
def poolComplete (limit n : Nat) (statusOf : Nat → String) (s : PoolState)
    (j : Nat) : PoolState :=
  dispatchLoop limit n ⟨s.idx, s.inflight.erase j, s.results ++ [(j, statusOf j)]⟩

/-- The states the runWithConcurrency event loop can reach: the initial
dispatch pass, then any interleaving of worker settlements (the settling
worker must be in flight). `statusOf j` is the terminal status worker
`j` settles with. -/
inductive PoolReach (limit n : Nat) (statusOf : Nat → String) : PoolState → Prop
  | init : PoolReach limit n statusOf (initPool limit n)
  | step (s : PoolState) (j : Nat) (hs : PoolReach limit n statusOf s)
      (hj : j ∈ s.inflight) :
      PoolReach limit n statusOf (poolComplete limit n statusOf s j)

/-- The resolve condition checked at the head of next():
`idx >= items.length && active === 0`. -/
def poolResolved (n : Nat) (s : PoolState) : Prop :=
  n ≤ s.idx ∧ s.inflight = []

/-- The concurrency clamp in startUpload (src/unnamed/part_001,
line 116): `Math.max(1, concurrency)`. -/
def startUploadLimit (concurrency : Int) : Int := max 1 concurrency

/-- The bookkeeping invariant of the runWithConcurrency event loop:
the cursor never passes the input length, the dispatched indices (in
flight plus settled) are exactly the first idx input indices with no
duplication, and every settled entry carries the terminal status of its
own worker. -/
def PoolInv (n : Nat) (statusOf : Nat → String) (s : PoolState) : Prop :=
  s.idx ≤ n ∧
    (s.inflight ++ s.results.map Prod.fst).Perm (List.range s.idx) ∧
    ∀ p ∈ s.results, p.2 = statusOf p.1

/-- Abstraction of the platform builtins used by toFilename
(src/unnamed/part_002, lines 127-134): `tryParsePathname item` is the
pathname of `new URL(item)` when the constructor succeeds and none when
it throws; `basename` is path.basename; `decodeComp` is
decodeURIComponent. These are not repository code. -/
structure UrlLib where
  tryParsePathname : String → Option String
  basename : String → String
  decodeComp : String → String

/-- JS String.prototype.trim on Lean String. -/
def jsTrimS (s : String) : String := ⟨jsTrim s.data⟩

/-- toFilename of the Express bulk-delete route (src/unnamed/part_002,
lines 127-134): URL-decode the basename of the pathname of an absolute
URL, else the trimmed raw string. -/
def toFilename (lib : UrlLib) (item : String) : String :=
  match lib.tryParsePathname item with
  | some pathname => lib.decodeComp (lib.basename pathname)
  | none => jsTrimS item

/-- Insertion into a JS Set: first insertion fixes the position,
re-insertion is a no-op (insertion-order iteration). -/
def addToSet (seen : List String) (x : String) : List String :=
  if x ∈ seen then seen else seen ++ [x]

/-- `Array.from(new Set(list))`: deduplication keeping the first
occurrence of each element, in order. -/
def jsSetList (l : List String) : List String := l.foldl addToSet []

/-- The resolved canonical filename set of the Express delete route
(src/unnamed/part_002, line 136):
`Array.from(new Set(rawItems.map(toFilename).filter(Boolean)))`. -/
def resolveNames (lib : UrlLib) (raw : List String) : List String :=
  jsSetList ((raw.map (toFilename lib)).filter (fun s => s ≠ ""))

/-- One record of the lowdb images array of the Express backend
(src/unnamed/part_002). Only `filename` is examined by the delete
route; the remaining fields ride along. -/
structure ExpressImage where
  filename : String
  url : String
  size : Nat
  ctype : String
  createdAt : String
  updatedAt : String
deriving DecidableEq, Repr

/-- The server state the Express delete route touches: the filenames
present in UPLOADS_DIR and the lowdb images array. -/
structure DeleteCtx where
  storage : List String
  images : List ExpressImage
deriving DecidableEq, Repr

/-- One element of the per-item report of the delete route. -/
structure DeleteItem where
  filename : String
  fileDeleted : Bool
  recordDeleted : Bool
deriving DecidableEq, Repr

/-- The `filenames.forEach` deletion loop (src/unnamed/part_002, lines
139-156): best-effort unlink (an existsSync miss or a thrown unlink,
modelled by `unlinkFails`, leaves fileDeleted false), then the
independent lowdb record removal. -/
def deleteLoop (unlinkFails : String → Bool) :
    List String → DeleteCtx → DeleteCtx × List DeleteItem
  | [], ctx => (ctx, [])
  | name :: rest, ctx =>
    let present := ctx.storage.contains name
    let fileDel := present && !unlinkFails name
    let storage' := if fileDel then ctx.storage.erase name else ctx.storage
    let hadRecord := ctx.images.any (fun r => r.filename = name)
    let images' := ctx.images.filter (fun r => r.filename ≠ name)
    let tail := deleteLoop unlinkFails rest ⟨storage', images'⟩
    (tail.1, ⟨name, fileDel, hadRecord⟩ :: tail.2)

/-- The Express POST /delete handler (src/unnamed/part_002, lines
120-158): `rawItems` is `req.body.items` when it is an array, else [];
an empty rawItems is answered with the 400 "items array required";
otherwise the resolved filename set is processed and the per-item
report returned. -/
def deletePost (lib : UrlLib) (unlinkFails : String → Bool)
    (items? : Option (List String)) (ctx : DeleteCtx) :
    Except String (DeleteCtx × List DeleteItem) :=
  let rawItems := items?.getD []
  if rawItems.isEmpty then Except.error "items array required"
  else Except.ok (deleteLoop unlinkFails (resolveNames lib rawItems) ctx)

/-- A UrlLib in which no string parses as an absolute URL
(plain-filename inputs). -/
def trivUrlLib : UrlLib := ⟨fun _ => none, id, id⟩

/-- A tiny concrete UrlLib recognising one absolute URL, for concrete
evaluation of the classification. -/
def demoUrlLib : UrlLib :=
  ⟨fun s => if s = "http://h/files/a%20b.png" then some "/files/a%20b.png" else none,
    fun p => ⟨jsLastD (splitOnChar '/' p.data)⟩,
    fun s => if s = "a%20b.png" then "a b.png" else s⟩

/-- The row built by the server CSV export
(src/app/api/images/list/route.ts, line 15): raw values joined with
commas, no quoting. -/
def serverCsvRow (m : ImageMeta) : String :=
  String.intercalate ","
    [m.filename, m.url, toString m.size, m.mime, m.createdAt, m.updatedAt]

/-- The full server CSV document (header line then one row per record). -/
def serverCsv (images : List ImageMeta) : String :=
  String.intercalate "\n"
    ("filename,url,size,mime,createdAt,updatedAt" :: images.map serverCsvRow)

/-- The record shape consumed by the client table
(src/components/image-table.tsx): mime and type are both optional. -/
structure ClientImage where
  filename : String
  url : String
  size : Nat
  mime : Option String
  ctype : Option String
  createdAt : String
  updatedAt : String
deriving DecidableEq, Repr

/-- JS `a \x7c\x7c b` where a is an optional field (undefined or a
possibly empty string). -/
def jsOrOpt (a : Option String) (b : String) : String :=
  match a with
  | none => b
  | some s => if s = "" then b else s

/-- The global quote replacement of downloadCsv: double every
embedded double quote of the stringified value. -/
def escCsvChars : List Char → List Char
  | [] => []
  | c :: rest =>
    if c = '"' then '"' :: '"' :: escCsvChars rest else c :: escCsvChars rest

/-- One quoted cell of downloadCsv: the escaped value wrapped in
double quotes. -/
def csvCell (v : String) : String := ⟨'"' :: escCsvChars v.data ++ ['"']⟩

/-- The fixed column order of a downloadCsv data row
(src/components/image-table.tsx, lines 68-75). -/
def clientRowFields (i : ClientImage) : List String :=
  [i.filename, i.url, toString i.size, jsOrOpt i.ctype (jsOrOpt i.mime ""),
    i.createdAt, i.updatedAt]

/-- The downloadCsv text: header row and data rows all pass through the
same quote-and-join. -/
def clientCsv (images : List ClientImage) : String :=
  String.intercalate "\n"
    ((["filename", "url", "size", "type", "createdAt", "updatedAt"] ::
        images.map clientRowFields).map
      (fun r => String.intercalate "," (r.map csvCell)))

/-- Inverse of escCsvChars: undouble quotes, reject a lone quote. -/
def unescCsv : List Char → Option (List Char)
  | [] => some []
  | [c] => if c = '"' then none else some [c]
  | c :: d :: rest =>
    if c = '"' then
      if d = '"' then (unescCsv rest).map (fun t => '"' :: t) else none
    else (unescCsv (d :: rest)).map (fun t => c :: t)

/-! ## Lemmas about sanitizeFilename -/

example :
    findVal (dbUpsert [] "a.png" "/u" 3 "image/png" "t1" "id1") "a.png" =
      some ⟨"id1", "a.png", "/u", 3, "image/png", "t1", "t1"⟩ := by decide
example :
    findVal
      (dbUpsert (dbUpsert [] "a.png" "/u" 3 "m1" "t1" "id1")
        "a.png" "/u" 5 "m2" "t2" "id2") "a.png" =
      some ⟨"id1", "a.png", "/u", 5, "m2", "t1", "t2"⟩ := by decide
example : sanitizeFilename "../etc/passwd" = "passwd" := by decide
example : sanitizeFilename "a b?.png" = "a_b_.png" := by decide
example : sanitizeFilename "___" = "file" := by decide
example : sanitizeFilename "" = "file" := by decide
example : sanitizeFilename ".bashrc" = ".bashrc" := by decide
example : initPool 3 10 = ⟨3, [0, 1, 2], []⟩ := by decide
example : initPool 3 2 = ⟨2, [0, 1], []⟩ := by decide
example : initPool 3 0 = ⟨0, [], []⟩ := by decide
example :
    poolComplete 2 3 (fun _ => "uploaded") (initPool 2 3) 1 =
      ⟨3, [0, 2], [(1, "uploaded")]⟩ := by decide
example : resolveNames trivUrlLib [" "] = [] := by decide
example : resolveNames trivUrlLib ["a.png", "a.png", " b.png"] = ["a.png", "b.png"] := by decide
example : toFilename demoUrlLib "http://h/files/a%20b.png" = "a b.png" := by decide
example :
    deletePost trivUrlLib (fun _ => false) (some [" "]) ⟨[], []⟩ =
      Except.ok (⟨[], []⟩, []) := rfl
example :
    deletePost trivUrlLib (fun _ => false) none ⟨[], []⟩ =
      Except.error "items array required" := rfl
example : csvCell "a\"b,c" = "\"a\"\"b,c\"" := by decide
example : unescCsv (escCsvChars "a\"b,c".data) = some "a\"b,c".data := by decide
example :
    serverCsvRow ⟨"id1", "a.png", "/u", 3, "x,y", "t1", "t2"⟩ =
      "a.png,/u,3,x,y,t1,t2" := by decide

theorem safeChar_not_slash {c : Char} (h : isSafeChar c = true) :
    c ≠ '/' ∧ c ≠ '\\' := by
  constructor <;> rintro rfl <;> exact absurd h (by decide)

theorem safeChar_not_underscore_free {c : Char} (h : isSafeChar c = true) :
    jsWhitespace c = false := by
  by_contra h2
  rw [Bool.not_eq_false, jsWhitespace, decide_eq_true_iff] at h2
  rcases h2 with rfl | rfl | rfl | rfl | rfl | rfl <;> exact absurd h (by decide)

theorem dropWhile_eq_self_of_all_false {p : Char → Bool} {l : List Char}
    (h : ∀ c ∈ l, p c = false) : l.dropWhile p = l := by
  cases l with
  | nil => rfl
  | cons c rest => simp [List.dropWhile, h c (by simp)]

theorem jsTrim_eq_self {l : List Char} (h : ∀ c ∈ l, jsWhitespace c = false) :
    jsTrim l = l := by
  unfold jsTrim
  rw [dropWhile_eq_self_of_all_false h,
    dropWhile_eq_self_of_all_false (fun c hc => h c (List.mem_reverse.mp hc)),
    List.reverse_reverse]

theorem mem_of_mem_jsTrim {c : Char} {l : List Char} (h : c ∈ jsTrim l) :
    c ∈ l := by
  unfold jsTrim at h
  rw [List.mem_reverse] at h
  have h2 := (List.dropWhile_sublist _).subset h
  rw [List.mem_reverse] at h2
  exact (List.dropWhile_sublist _).subset h2

theorem head?_dropWhile {p : Char → Bool} {l : List Char} {c : Char}
    (h : (l.dropWhile p).head? = some c) : p c = false := by
  induction l with
  | nil => simp at h
  | cons a rest ih =>
    by_cases hp : p a = true
    · rw [List.dropWhile_cons_of_pos hp] at h
      exact ih h
    · rw [List.dropWhile_cons_of_neg hp] at h
      simp at h
      rw [← h]
      exact Bool.eq_false_iff.mpr hp

theorem mem_sanitizeCore_safe {name : List Char} :
    ∀ c ∈ sanitizeCore name, isSafeChar c = true := by
  intro c hc
  simp only [sanitizeCore] at hc
  split at hc
  · fin_cases hc <;> decide
  · have h1 : c ∈ (jsLastD (splitOnChar '\\' (jsLastD (splitOnChar '/' name)))).map
        (fun c => if isSafeChar c then c else '_') :=
      (List.dropWhile_sublist _).subset (mem_of_mem_jsTrim hc)
    rcases List.mem_map.mp h1 with ⟨a, _, ha⟩
    by_cases hs : isSafeChar a = true
    · rw [if_pos hs] at ha; rw [← ha]; exact hs
    · rw [if_neg hs] at ha; rw [← ha]; decide

theorem sanitizeCore_ne_nil {name : List Char} : sanitizeCore name ≠ [] := by
  simp only [sanitizeCore]
  split
  · simp
  · next h => exact fun h2 => h (by rw [h2]; rfl)

theorem sanitizeCore_head_ne_underscore {name : List Char} {c : Char}
    (h : (sanitizeCore name).head? = some c) : c ≠ '_' := by
  simp only [sanitizeCore] at h
  split at h
  · simp at h; rw [← h]; decide
  · have hsafe : ∀ a ∈ (jsLastD (splitOnChar '\\' (jsLastD (splitOnChar '/' name)))).map
        (fun c => if isSafeChar c then c else '_'), isSafeChar a = true := by
      intro a ha
      rcases List.mem_map.mp ha with ⟨b, _, hb⟩
      by_cases hs : isSafeChar b = true
      · rw [if_pos hs] at hb; rw [← hb]; exact hs
      · rw [if_neg hs] at hb; rw [← hb]; decide
    rw [jsTrim_eq_self (fun a ha =>
      safeChar_not_underscore_free (hsafe a ((List.dropWhile_sublist _).subset ha)))] at h
    have := head?_dropWhile h
    intro hc
    rw [hc] at this
    simp at this

theorem splitOnChar_of_not_mem {sep : Char} {l : List Char} (h : sep ∉ l) :
    splitOnChar sep l = [l] := by
  induction l with
  | nil => rfl
  | cons c rest ih =>
    have hc : c ≠ sep := fun he => h (he ▸ List.mem_cons_self c rest)
    have hr : sep ∉ rest := fun hm => h (List.mem_cons_of_mem c hm)
    rw [splitOnChar, ih hr]
    simp [hc]

theorem map_safe_eq_self {l : List Char} (h : ∀ c ∈ l, isSafeChar c = true) :
    l.map (fun c => if isSafeChar c then c else '_') = l := by
  induction l with
  | nil => rfl
  | cons c rest ih =>
    rw [List.map_cons, if_pos (h c (by simp)), ih (fun a ha => h a (by simp [ha]))]

theorem sanitizeCore_fixed {r : List Char}
    (hsafe : ∀ c ∈ r, isSafeChar c = true) (hne : r ≠ [])
    (hhead : ∀ c, r.head? = some c → c ≠ '_') :
    sanitizeCore r = r := by
  have hslash : '/' ∉ r := fun hm => (safeChar_not_slash (hsafe _ hm)).1 rfl
  have hback : '\\' ∉ r := fun hm => (safeChar_not_slash (hsafe _ hm)).2 rfl
  have hdrop : r.dropWhile (fun c => decide (c = '_')) = r := by
    cases hn : r with
    | nil => exact absurd hn hne
    | cons a rest =>
      have ha : a ≠ '_' := hhead a (by rw [hn]; rfl)
      exact List.dropWhile_cons_of_neg (by simp [ha])
  have htrim : jsTrim r = r :=
    jsTrim_eq_self (fun c hc => safeChar_not_underscore_free (hsafe c hc))
  simp only [sanitizeCore]
  rw [splitOnChar_of_not_mem hslash]
  show (if (jsTrim (((jsLastD (splitOnChar '\\' (jsLastD [r]))).map
      (fun c => if isSafeChar c then c else '_')).dropWhile
        (fun c => decide (c = '_')))).isEmpty then ['f', 'i', 'l', 'e']
    else jsTrim (((jsLastD (splitOnChar '\\' (jsLastD [r]))).map
      (fun c => if isSafeChar c then c else '_')).dropWhile
        (fun c => decide (c = '_')))) = r
  show (if (jsTrim (((jsLastD (splitOnChar '\\' r)).map
      (fun c => if isSafeChar c then c else '_')).dropWhile
        (fun c => decide (c = '_')))).isEmpty then ['f', 'i', 'l', 'e']
    else jsTrim (((jsLastD (splitOnChar '\\' r)).map
      (fun c => if isSafeChar c then c else '_')).dropWhile
        (fun c => decide (c = '_')))) = r
  rw [splitOnChar_of_not_mem hback]
  show (if (jsTrim ((r.map
      (fun c => if isSafeChar c then c else '_')).dropWhile
        (fun c => decide (c = '_')))).isEmpty then ['f', 'i', 'l', 'e']
    else jsTrim ((r.map
      (fun c => if isSafeChar c then c else '_')).dropWhile
        (fun c => decide (c = '_')))) = r
  rw [map_safe_eq_self hsafe, hdrop, htrim]
  rw [if_neg (by simpa using hne)]

theorem sanitizeCore_idem (name : List Char) :
    sanitizeCore (sanitizeCore name) = sanitizeCore name :=
  sanitizeCore_fixed mem_sanitizeCore_safe sanitizeCore_ne_nil
    (fun _ h => sanitizeCore_head_ne_underscore h)

/-! ## Lemmas about the runWithConcurrency worker pool -/

theorem dispatchN_len_le {limit n : Nat} :
    ∀ (fuel : Nat) (s : PoolState), s.inflight.length ≤ limit →
      (dispatchN limit n fuel s).inflight.length ≤ limit := by
  intro fuel
  induction fuel with
  | zero => intro s h; exact h
  | succ k ih =>
    intro s h
    rw [dispatchN]
    split
    · next hc => exact ih _ (by simp [poolDispatch]; omega)
    · exact h

theorem dispatchN_results {limit n : Nat} :
    ∀ (fuel : Nat) (s : PoolState),
      (dispatchN limit n fuel s).results = s.results := by
  intro fuel
  induction fuel with
  | zero => intro s; rfl
  | succ k ih =>
    intro s
    rw [dispatchN]
    split
    · rw [ih]; rfl
    · rfl

theorem dispatchN_inv {limit n : Nat} {statusOf : Nat → String} :
    ∀ (fuel : Nat) (s : PoolState), PoolInv n statusOf s →
      PoolInv n statusOf (dispatchN limit n fuel s) := by
  intro fuel
  induction fuel with
  | zero => intro s h; exact h
  | succ k ih =>
    intro s h
    rw [dispatchN]
    split
    · next hc =>
      apply ih
      refine ⟨hc.2, ?_, h.2.2⟩
      show ((s.inflight ++ [s.idx]) ++ s.results.map Prod.fst).Perm
        (List.range (s.idx + 1))
      rw [List.range_succ, List.append_assoc]
      have h1 : ([s.idx] ++ s.results.map Prod.fst).Perm
          (s.results.map Prod.fst ++ [s.idx]) := List.perm_append_comm
      have h2 := List.Perm.append_left s.inflight h1
      have h3 : s.inflight ++ (s.results.map Prod.fst ++ [s.idx]) =
          (s.inflight ++ s.results.map Prod.fst) ++ [s.idx] :=
        (List.append_assoc _ _ _).symm
      have h4 := List.Perm.append_right [s.idx] h.2.1
      exact h2.trans (h3 ▸ h4)
    · exact h

theorem poolComplete_inv {limit n : Nat} {statusOf : Nat → String}
    {s : PoolState} {j : Nat} (hj : j ∈ s.inflight)
    (h : PoolInv n statusOf s) :
    PoolInv n statusOf (poolComplete limit n statusOf s j) := by
  apply dispatchN_inv
  refine ⟨h.1, ?_, ?_⟩
  · show (s.inflight.erase j ++
      (s.results ++ [(j, statusOf j)]).map Prod.fst).Perm (List.range s.idx)
    rw [List.map_append]
    simp only [List.map_cons, List.map_nil]
    have hp : s.inflight.Perm (j :: s.inflight.erase j) :=
      List.perm_cons_erase hj
    have h1 : (s.results.map Prod.fst ++ [j]).Perm
        ([j] ++ s.results.map Prod.fst) := List.perm_append_comm
    have h2 := List.Perm.append_left (s.inflight.erase j) h1
    have h3 : s.inflight.erase j ++ ([j] ++ s.results.map Prod.fst) =
        (s.inflight.erase j ++ [j]) ++ s.results.map Prod.fst :=
      (List.append_assoc _ _ _).symm
    have h4 : (s.inflight.erase j ++ [j]).Perm s.inflight :=
      List.perm_append_comm.trans hp.symm
    have h5 := List.Perm.append_right (s.results.map Prod.fst) h4
    exact h2.trans (h3 ▸ (h5.trans h.2.1))
  · intro p hp
    rcases List.mem_append.mp hp with hmem | hmem
    · exact h.2.2 p hmem
    · rw [List.mem_singleton.mp hmem]

theorem poolReach_inv {limit n : Nat} {statusOf : Nat → String}
    {s : PoolState} (h : PoolReach limit n statusOf s) :
    PoolInv n statusOf s := by
  induction h with
  | init =>
    apply dispatchN_inv
    exact ⟨Nat.zero_le n, by simp, by simp⟩
  | step s j hs hj ih => exact poolComplete_inv hj ih

theorem poolReach_len_le {limit n : Nat} {statusOf : Nat → String}
    {s : PoolState} (h : PoolReach limit n statusOf s) :
    s.inflight.length ≤ limit := by
  induction h with
  | init => exact dispatchN_len_le _ _ (by simp)
  | step s j hs hj ih =>
    apply dispatchN_len_le
    calc (s.inflight.erase j).length ≤ s.inflight.length :=
        (s.inflight.erase_sublist j).length_le
      _ ≤ limit := ih

/-! ## Lemmas about Set deduplication, the delete loop, the store map
and CSV escaping -/

theorem mem_addToSet {seen : List String} {x y : String} :
    y ∈ addToSet seen x ↔ y ∈ seen ∨ y = x := by
  unfold addToSet
  split
  · next hx =>
    constructor
    · exact fun h => Or.inl h
    · rintro (h | rfl)
      · exact h
      · exact hx
  · simp

theorem addToSet_nodup {seen : List String} {x : String} (h : seen.Nodup) :
    (addToSet seen x).Nodup := by
  unfold addToSet
  split
  · exact h
  · next hx => simp [List.nodup_append, h, hx]

theorem foldl_addToSet_nodup :
    ∀ (l seen : List String), seen.Nodup → (l.foldl addToSet seen).Nodup := by
  intro l
  induction l with
  | nil => intro seen h; exact h
  | cons x rest ih => intro seen h; exact ih _ (addToSet_nodup h)

theorem mem_foldl_addToSet :
    ∀ (l seen : List String) (y : String),
      y ∈ l.foldl addToSet seen ↔ y ∈ seen ∨ y ∈ l := by
  intro l
  induction l with
  | nil => intro seen y; simp
  | cons x rest ih =>
    intro seen y
    rw [List.foldl_cons, ih, mem_addToSet]
    simp
    tauto

theorem jsSetList_nodup (l : List String) : (jsSetList l).Nodup :=
  foldl_addToSet_nodup l [] List.nodup_nil

theorem mem_jsSetList {l : List String} {y : String} :
    y ∈ jsSetList l ↔ y ∈ l := by
  rw [jsSetList, mem_foldl_addToSet]
  simp

theorem resolveNames_nodup (lib : UrlLib) (raw : List String) :
    (resolveNames lib raw).Nodup := jsSetList_nodup _

theorem mem_resolveNames {lib : UrlLib} {raw : List String} {x : String} :
    x ∈ resolveNames lib raw ↔ x ∈ raw.map (toFilename lib) ∧ x ≠ "" := by
  rw [resolveNames, mem_jsSetList, List.mem_filter]
  simp

theorem deleteLoop_length (uf : String → Bool) :
    ∀ (names : List String) (ctx : DeleteCtx),
      ((deleteLoop uf names ctx).2.map (fun it => it.filename)) = names := by
  intro names
  induction names with
  | nil => intro ctx; rfl
  | cons name rest ih =>
    intro ctx
    rw [deleteLoop]
    simp only [List.map_cons]
    rw [ih]

theorem findVal_setKey_self {α : Type} (l : List (String × α)) (k : String)
    (v : α) : findVal (setKey l k v) k = some v := by
  induction l with
  | nil => simp [setKey, findVal]
  | cons p rest ih =>
    rw [setKey]
    split
    · simp [findVal]
    · next h =>
      rw [findVal]
      split
      · next h2 => exact absurd h2 h
      · exact ih

theorem unescCsv_cons_of_ne {c : Char} (tail : List Char) (hc : c ≠ '"') :
    unescCsv (c :: tail) = (unescCsv tail).map (fun t => c :: t) := by
  cases tail with
  | nil => simp [unescCsv, hc]
  | cons d rest => rw [unescCsv, if_neg hc]

theorem unescCsv_escCsv (v : List Char) : unescCsv (escCsvChars v) = some v := by
  induction v with
  | nil => rfl
  | cons c rest ih =>
    by_cases hc : c = '"'
    · subst hc
      rw [escCsvChars, if_pos rfl, unescCsv, if_pos rfl, if_pos rfl, ih]
      rfl
    · rw [escCsvChars, if_neg hc, unescCsv_cons_of_ne _ hc, ih]
      rfl

/-! ## Claim theorems -/

/-- C1: db.upsert preserves the id and createdAt of an existing record
while replacing url, size and mime and stamping updatedAt with the call
time; with no existing record it creates one with
createdAt = updatedAt = now; hence uploading the same fresh filename
twice leaves createdAt at the first timestamp, updatedAt at the second,
and size/mime of the second payload. -/
theorem upsert_timestamp_semantics :
    (∀ (images : List (String × ImageMeta)) (fn u : String) (sz : Nat)
        (mi now fid : String) (old : ImageMeta),
        findVal images fn = some old →
        findVal (dbUpsert images fn u sz mi now fid) fn =
          some ⟨old.id, fn, u, sz, mi, old.createdAt, now⟩) ∧
    (∀ (images : List (String × ImageMeta)) (fn u : String) (sz : Nat)
        (mi now fid : String),
        findVal images fn = none →
        findVal (dbUpsert images fn u sz mi now fid) fn =
          some ⟨fid, fn, u, sz, mi, now, now⟩) ∧
    (∀ (images : List (String × ImageMeta)) (fn u1 : String) (sz1 : Nat)
        (mi1 t1 id1 u2 : String) (sz2 : Nat) (mi2 t2 id2 : String),
        findVal images fn = none →
        findVal (dbUpsert (dbUpsert images fn u1 sz1 mi1 t1 id1)
            fn u2 sz2 mi2 t2 id2) fn =
          some ⟨id1, fn, u2, sz2, mi2, t1, t2⟩) := by
  refine ⟨?_, ?_, ?_⟩
  · intro images fn u sz mi now fid old h
    simp only [dbUpsert, h, Option.map_some', Option.getD_some]
    exact findVal_setKey_self _ _ _
  · intro images fn u sz mi now fid h
    simp only [dbUpsert, h, Option.map_none', Option.getD_none]
    exact findVal_setKey_self _ _ _
  · intro images fn u1 sz1 mi1 t1 id1 u2 sz2 mi2 t2 id2 h
    have h1 : findVal (dbUpsert images fn u1 sz1 mi1 t1 id1) fn =
        some ⟨id1, fn, u1, sz1, mi1, t1, t1⟩ := by
      simp only [dbUpsert, h, Option.map_none', Option.getD_none]
      exact findVal_setKey_self _ _ _
    generalize hS : dbUpsert images fn u1 sz1 mi1 t1 id1 = S at h1
    simp only [dbUpsert, h1, Option.map_some', Option.getD_some]
    exact findVal_setKey_self _ _ _

theorem upsert_timestamp_semantics_witness :
    findVal (dbUpsert (dbUpsert [] "a.png" "/u" 3 "m1" "t1" "id1")
        "a.png" "/u2" 5 "m2" "t2" "id2") "a.png" =
      some ⟨"id1", "a.png", "/u2", 5, "m2", "t1", "t2"⟩ :=
  upsert_timestamp_semantics.2.2 [] "a.png" "/u" 3 "m1" "t1" "id1"
    "/u2" 5 "m2" "t2" "id2" rfl

/-- C2: in every reachable state of the runWithConcurrency event loop
the number of in-flight workers is at most the limit, and the
concurrency value startUpload passes to the pool is clamped to at
least 1. -/
theorem pool_concurrency_bounded :
    (∀ (limit n : Nat) (statusOf : Nat → String) (s : PoolState),
        PoolReach limit n statusOf s → s.inflight.length ≤ limit) ∧
    (∀ c : Int, 1 ≤ startUploadLimit c) := by
  refine ⟨?_, ?_⟩
  · intro limit n statusOf s h
    exact poolReach_len_le h
  · intro c
    exact le_max_left 1 c

theorem pool_concurrency_bounded_witness :
    (initPool 2 5).inflight.length ≤ 2 ∧ 1 ≤ startUploadLimit 0 :=
  ⟨pool_concurrency_bounded.1 2 5 (fun _ => "uploaded") _ PoolReach.init,
    pool_concurrency_bounded.2 0⟩

/-- C3: when the runWithConcurrency loop reaches its resolve condition,
the settled outcome list carries exactly one entry per input index
(a permutation of range n), its length is the batch size, and every
entry bears a terminal status; the empty batch is resolved immediately
by the initial dispatch pass with an empty outcome list. -/
theorem pool_completeness :
    (∀ (limit n : Nat) (statusOf : Nat → String) (s : PoolState),
        PoolReach limit n statusOf s →
        (∀ j, statusOf j ∈ terminalStatuses) →
        poolResolved n s →
        (s.results.map Prod.fst).Perm (List.range n) ∧
          s.results.length = n ∧
          ∀ p ∈ s.results, p.2 ∈ terminalStatuses) ∧
    (∀ limit : Nat, initPool limit 0 = ⟨0, [], []⟩ ∧
        poolResolved 0 (initPool limit 0)) := by
  refine ⟨?_, ?_⟩
  · intro limit n statusOf s h hterm hres
    have inv := poolReach_inv h
    have hidx : s.idx = n := Nat.le_antisymm inv.1 hres.1
    have hperm : (s.results.map Prod.fst).Perm (List.range n) := by
      have := inv.2.1
      rw [hres.2, List.nil_append, hidx] at this
      exact this
    refine ⟨hperm, ?_, ?_⟩
    · have hlen := hperm.length_eq
      rw [List.length_map, List.length_range] at hlen
      exact hlen
    · intro p hp
      rw [inv.2.2 p hp]
      exact hterm p.1
  · intro limit
    exact ⟨rfl, le_refl 0, rfl⟩

theorem pool_completeness_witness :
    ((poolComplete 1 1 (fun _ => "uploaded")
        (initPool 1 1) 0).results.map Prod.fst).Perm (List.range 1) ∧
      (poolComplete 1 1 (fun _ => "uploaded") (initPool 1 1) 0).results.length = 1 ∧
      ∀ p ∈ (poolComplete 1 1 (fun _ => "uploaded") (initPool 1 1) 0).results,
        p.2 ∈ terminalStatuses :=
  pool_completeness.1 1 1 (fun _ => "uploaded")
    (poolComplete 1 1 (fun _ => "uploaded") (initPool 1 1) 0)
    (PoolReach.step (initPool 1 1) 0 PoolReach.init (by decide))
    (by intro j; exact (by decide : "uploaded" ∈ terminalStatuses))
    (by exact ⟨by decide, by decide⟩)

/-- C4: when the sanitized target name already exists in storage and
the batch overwrite flag is false, the upload route emits a skipped
outcome with the explanatory reason and leaves the stored bytes and the
metadata map completely unchanged. -/
theorem upload_skip_on_conflict_frame :
    ∀ (st : ServerState) (f : FileIn),
      (findVal st.storage (destName f)).isSome = true →
      processOne st false f =
        ⟨st, ⟨uploadName f, none, "skipped",
          some "File exists. Set overwrite=true to replace."⟩⟩ := by
  intro st f h
  simp [processOne, h]

theorem upload_skip_on_conflict_frame_witness :
    processOne ⟨[("a.png", [1])], []⟩ false
        ⟨"a.png", [2, 3], "image/png", "t1", "id1", none, none⟩ =
      ⟨⟨[("a.png", [1])], []⟩,
        ⟨uploadName ⟨"a.png", [2, 3], "image/png", "t1", "id1", none, none⟩,
          none, "skipped",
          some "File exists. Set overwrite=true to replace."⟩⟩ :=
  upload_skip_on_conflict_frame ⟨[("a.png", [1])], []⟩
    ⟨"a.png", [2, 3], "image/png", "t1", "id1", none, none⟩ (by decide)

/-- C5 (counterexample): a failing storage write in the Next.js upload
route is reported with status "skipped", not "error": the catch block
pushes status "skipped" carrying the thrown message. -/
theorem upload_failure_status_cex :
    (processOne ⟨[], []⟩ true
        ⟨"a.png", [1, 2, 3], "image/png", "t1", "id1",
          some "disk full", none⟩).result =
      ⟨"a.png", none, "skipped", some "disk full"⟩ ∧
      (processOne ⟨[], []⟩ true
        ⟨"a.png", [1, 2, 3], "image/png", "t1", "id1",
          some "disk full", none⟩).result.status ≠ "error" := by decide

/-- C5 (amended): a per-file storage or store failure in the Next.js
upload route yields an outcome with status "skipped" that carries the
failure description; the loop is not aborted (the batch still produces
exactly one outcome per input file), a write failure leaves storage and
metadata untouched, a store failure leaves the metadata untouched; the
client coordinator maps a rejected worker promise to status "error". -/
theorem upload_failure_reported_amended :
    (∀ (st : ServerState) (ov : Bool) (files : List FileIn),
        (processBatch st ov files).results.length = files.length) ∧
    (∀ (st : ServerState) (f : FileIn) (msg : String) (ov : Bool),
        f.writeErr = some msg →
        ((findVal st.storage (destName f)).isSome = true → ov = true) →
        processOne st ov f = ⟨st, ⟨uploadName f, none, "skipped", some msg⟩⟩) ∧
    (∀ (st : ServerState) (f : FileIn) (msg : String) (ov : Bool),
        f.writeErr = none → f.upsertErr = some msg →
        ((findVal st.storage (destName f)).isSome = true → ov = true) →
        processOne st ov f =
          ⟨⟨setKey st.storage (destName f) f.content, st.images⟩,
            ⟨uploadName f, none, "skipped", some msg⟩⟩) ∧
    (∀ (name msg : String),
        settleWorker name (Except.error msg) = ⟨name, "error", some msg⟩) := by
  refine ⟨?_, ?_, ?_, ?_⟩
  · intro st ov files
    induction files generalizing st with
    | nil => rfl
    | cons f rest ih =>
      simp only [processBatch, List.length_cons]
      rw [ih]
  · intro st f msg ov hw himp
    have hcond : ¬((findVal st.storage (destName f)).isSome = true ∧
        ¬(ov = true)) := by
      rintro ⟨h1, h2⟩
      exact h2 (himp h1)
    simp only [processOne]
    rw [if_neg hcond, hw]
  · intro st f msg ov hw hu himp
    have hcond : ¬((findVal st.storage (destName f)).isSome = true ∧
        ¬(ov = true)) := by
      rintro ⟨h1, h2⟩
      exact h2 (himp h1)
    simp only [processOne]
    rw [if_neg hcond, hw, hu]
  · intro name msg
    rfl

theorem upload_failure_reported_amended_witness :
    (processBatch ⟨[], []⟩ true
        [⟨"b.png", [1], "m", "t", "i", some "disk full", none⟩]).results.length = 1 ∧
      processOne ⟨[], []⟩ true
          ⟨"b.png", [1], "m", "t", "i", some "disk full", none⟩ =
        ⟨⟨[], []⟩,
          ⟨uploadName ⟨"b.png", [1], "m", "t", "i", some "disk full", none⟩,
            none, "skipped", some "disk full"⟩⟩ :=
  ⟨upload_failure_reported_amended.1 ⟨[], []⟩ true
      [⟨"b.png", [1], "m", "t", "i", some "disk full", none⟩],
    upload_failure_reported_amended.2.1 ⟨[], []⟩
      ⟨"b.png", [1], "m", "t", "i", some "disk full", none⟩ "disk full" true
      rfl (by decide)⟩

/-- C6: evaluation at the failing input of the hidden-name clause:
sanitizeFilename keeps the leading dot of ".bashrc", so its output can
begin with a dot even though both the specification and the code
comment say hidden names are prevented. -/
theorem sanitize_hidden_name_bug :
    sanitizeFilename ".bashrc" = ".bashrc" ∧
      (sanitizeFilename ".bashrc").data.head? = some '.' := by decide

/-- C7: the bulk-delete resolution classifies a raw identifier as the
URL-decoded basename of the pathname when it parses as an absolute URL
and as the trimmed raw string otherwise, and the resulting filename
collection is deduplicated with set semantics: no filename appears
twice, and a filename is processed exactly when it arose from some raw
identifier and is nonempty. -/
theorem delete_target_resolution :
    (∀ (lib : UrlLib) (item p : String),
        lib.tryParsePathname item = some p →
        toFilename lib item = lib.decodeComp (lib.basename p)) ∧
    (∀ (lib : UrlLib) (item : String),
        lib.tryParsePathname item = none →
        toFilename lib item = jsTrimS item) ∧
    (∀ (lib : UrlLib) (raw : List String),
        (resolveNames lib raw).Nodup ∧
        ∀ x, x ∈ resolveNames lib raw ↔
          x ∈ raw.map (toFilename lib) ∧ x ≠ "") := by
  refine ⟨?_, ?_, ?_⟩
  · intro lib item p h
    rw [toFilename, h]
  · intro lib item h
    rw [toFilename, h]
  · intro lib raw
    exact ⟨resolveNames_nodup lib raw, fun x => mem_resolveNames⟩

theorem delete_target_resolution_witness :
    toFilename demoUrlLib "http://h/files/a%20b.png" =
      demoUrlLib.decodeComp (demoUrlLib.basename "/files/a%20b.png") ∧
      toFilename demoUrlLib " x.png " = jsTrimS " x.png " ∧
      (resolveNames demoUrlLib ["a.png", "a.png"]).Nodup :=
  ⟨delete_target_resolution.1 demoUrlLib "http://h/files/a%20b.png"
      "/files/a%20b.png" (by decide),
    delete_target_resolution.2.1 demoUrlLib " x.png " (by decide),
    (delete_target_resolution.2.2 demoUrlLib ["a.png", "a.png"]).1⟩

/-- C8 (counterexample): an items array containing only a blank string
resolves to the empty canonical-filename set, yet the Express delete
route does not answer 400: it returns an empty per-item report, because
the 400 check inspects only the raw items array. -/
theorem delete_badrequest_cex :
    resolveNames trivUrlLib [" "] = [] ∧
      deletePost trivUrlLib (fun _ => false) (some [" "]) ⟨[], []⟩ =
        Except.ok (⟨[], []⟩, []) :=
  ⟨rfl, rfl⟩

/-- C8 (amended): the Express delete route fails with the 400
BadRequestError exactly when the raw items array is missing or empty;
whenever items is nonempty it returns a full per-item report covering
each distinct resolved filename exactly once (possibly an empty report
when no valid target resolves), never a 400. -/
theorem delete_badrequest_amended :
    (∀ (lib : UrlLib) (uf : String → Bool) (items? : Option (List String))
        (ctx : DeleteCtx),
        (∃ e, deletePost lib uf items? ctx = Except.error e) ↔
          items?.getD [] = []) ∧
    (∀ (lib : UrlLib) (uf : String → Bool) (raw : List String)
        (ctx : DeleteCtx), raw ≠ [] →
        ∃ out, deletePost lib uf (some raw) ctx = Except.ok out ∧
          out.2.map (fun it => it.filename) = resolveNames lib raw) := by
  refine ⟨?_, ?_⟩
  · intro lib uf items? ctx
    simp only [deletePost]
    split
    · next h =>
      constructor
      · intro _
        exact List.isEmpty_iff.mp h
      · intro _
        exact ⟨"items array required", rfl⟩
    · next h =>
      constructor
      · rintro ⟨e, he⟩
        exact absurd he (by simp)
      · intro h2
        exact absurd (List.isEmpty_iff.mpr h2) (by simpa using h)
  · intro lib uf raw ctx hne
    have h1 : raw.isEmpty = false := by
      cases raw with
      | nil => exact absurd rfl hne
      | cons a rest => rfl
    refine ⟨deleteLoop uf (resolveNames lib raw) ctx, ?_, ?_⟩
    · simp only [deletePost, Option.getD_some, h1]
      rfl
    · exact deleteLoop_length uf (resolveNames lib raw) ctx

theorem delete_badrequest_amended_witness :
    (∃ e, deletePost trivUrlLib (fun _ => false) none ⟨[], []⟩ =
        Except.error e) ∧
      ∃ out, deletePost trivUrlLib (fun _ => false) (some ["a.png"]) ⟨[], []⟩ =
          Except.ok out ∧
        out.2.map (fun it => it.filename) =
          resolveNames trivUrlLib ["a.png"] :=
  ⟨(delete_badrequest_amended.1 trivUrlLib (fun _ => false) none
      ⟨[], []⟩).mpr rfl,
    delete_badrequest_amended.2 trivUrlLib (fun _ => false) ["a.png"]
      ⟨[], []⟩ (by decide)⟩

/-- C9 (counterexample): the server CSV export joins raw field values
with commas and never quotes them: the row for a record whose mime
contains a comma has seven comma-separated fields and contains no
double quote at all, contradicting the claim that every value is
wrapped in double quotes. -/
theorem csv_quoting_cex :
    serverCsvRow ⟨"id1", "a.png", "/u", 3, "x,y", "t1", "t2"⟩ =
      "a.png,/u,3,x,y,t1,t2" ∧
      '"' ∉ (serverCsvRow ⟨"id1", "a.png", "/u", 3, "x,y", "t1", "t2"⟩).data := by
  decide

/-- C9 (amended): the client downloadCsv export emits the fixed column
order filename, url, size, type, createdAt, updatedAt, wraps every cell
in double quotes (first and last character), doubles every embedded
double quote losslessly (unescCsv inverts escCsvChars, so values with
commas or quotes are represented faithfully), and joins cells with
commas; the server CSV route instead joins raw unescaped values. -/
theorem csv_quoting_amended :
    (∀ v : List Char, unescCsv (escCsvChars v) = some v) ∧
    (∀ v : String, (csvCell v).data.head? = some '"' ∧
        (csvCell v).data.getLast? = some '"') ∧
    (∀ i : ClientImage,
        clientRowFields i =
          [i.filename, i.url, toString i.size,
            jsOrOpt i.ctype (jsOrOpt i.mime ""), i.createdAt, i.updatedAt]) ∧
    (∀ images : List ClientImage,
        clientCsv images = String.intercalate "\n"
          ((["filename", "url", "size", "type", "createdAt", "updatedAt"] ::
              images.map clientRowFields).map
            (fun r => String.intercalate "," (r.map csvCell)))) ∧
    (∀ m : ImageMeta,
        serverCsvRow m = String.intercalate ","
          [m.filename, m.url, toString m.size, m.mime, m.createdAt,
            m.updatedAt]) := by
  refine ⟨unescCsv_escCsv, ?_, fun i => rfl, fun images => rfl, fun m => rfl⟩
  intro v
  constructor
  · rfl
  · show (('"' :: escCsvChars v.data) ++ ['"']).getLast? = some '"'
    rw [List.getLast?_concat]

/-- C10: sanitizeFilename is idempotent, so the second sanitization the
routes apply when building the storage path (getSafeFilePath inside the
upload route, and again in the delete route) names exactly the file of
the already-sanitized record. -/
theorem sanitize_idempotent :
    (∀ s : String, sanitizeFilename (sanitizeFilename s) = sanitizeFilename s) ∧
      ∀ f : FileIn, destName f = uploadName f := by
  have hmain : ∀ s : String,
      sanitizeFilename (sanitizeFilename s) = sanitizeFilename s := by
    intro s
    show (⟨sanitizeCore (sanitizeFilename s).data⟩ : String) = ⟨sanitizeCore s.data⟩
    have hdata : (sanitizeFilename s).data = sanitizeCore s.data := rfl
    rw [hdata, sanitizeCore_idem]
  exact ⟨hmain, fun f => hmain (jsOrS f.name "file")⟩
